import Mathlib

/-!
Verification of the incremental SLAM front end of `front_end_isam.py`
(class `AUViSAM`).  The driver method `iSAM` keeps two counters, the
epoch index `state_idx` and the IMU cursor `imu_idx`, and loops while
`state_idx < 100`.  We embed the loop shallowly: every externally
observable action of one iteration (adding a prior factor to the local
factor graph, inserting an initial estimate into the local value
container, reading one IMU row, adding a preintegration factor,
calling the incremental solver) is recorded as an `Event`, and the
whole run produces an `Option (List Event)` — `none` models a Python
`IndexError` raised by an out-of-range sequence access.

The data series (`iekf_times`, `imu_times`, the row count of
`iekf_states`) are parameters, since the source loads them from CSV
files through an external data loader; we model each as an in-memory
ordered sequence (a `List Int` of raw nanosecond timestamps), whose
out-of-range access fails.  Timestamps are integers; the source
rescales `dt` by the positive constant `1e-9` before the sign test,
which does not change the sign, so the embedded skip test compares the
raw difference with zero.

The orientation computation of `get_nav_state` (scipy
`Rotation.from_rotvec` and matrix products) is embedded separately
over the reals further below.
-/

set_option maxRecDepth 100000

namespace UWSLAM

/-- Sigma of the pose prior noise model, the fixed literal 0.1 passed to
`gtsam.noiseModel.Isotropic.Sigma(6, 0.1)` in the constructor; written in
normalized rational form so that concrete traces reduce in the kernel. -/
def priorSigma : ℚ := Rat.mk' 1 10

/-- Sigma of the velocity prior noise model, the fixed literal 0.1 passed to
`gtsam.noiseModel.Isotropic.Sigma(3, 0.1)` in the constructor. -/
def velSigma : ℚ := Rat.mk' 1 10

/-- One observable action of a driver iteration.

* `visit i` — the loop body is entered with `state_idx = i` (the source
  immediately calls `get_nav_state(state_idx)` there);
* `addPriorPose i src s` — `graph.add(PriorFactorPose3(X(i), ...))` with the
  pose value taken from `get_nav_state(src)` and noise sigma `s`;
* `addPriorVel i src s` — `graph.add(PriorFactorPoint3(V(i), ...))` likewise;
* `insertPose i src` / `insertVel i src` — `initial.insert(X(i), ...)` /
  `initial.insert(V(i), ...)` with the value taken from `get_nav_state(src)`;
* `insertBias` — `initial.insert(BIAS_KEY, bias)` with the fixed bias literal;
* `consume k` — the inner IMU loop reads row `k` and advances the cursor;
* `addPreintFactor i j` — a preintegration (IMU) factor between epochs `i`
  and `j` is added to the graph;
* `isamUpdate` — the incremental solver `isam.update` is called.

The last two constructors give the vocabulary needed to state the spec
claims about preintegration constraints and solver updates; the source
of `iSAM` contains no call that would emit them (the `ISAM2` object and
the preintegrator `self.pim` are constructed and never used). -/
inductive Event where
  | visit (i : Nat)
  | addPriorPose (i src : Nat) (sigma : ℚ)
  | addPriorVel (i src : Nat) (sigma : ℚ)
  | insertPose (i src : Nat)
  | insertVel (i src : Nat)
  | insertBias
  | consume (k : Nat)
  | addPreintFactor (i j : Nat)
  | isamUpdate
  deriving DecidableEq

/-- The in-memory input series: the external-state timestamp series
`iekf_times`, the IMU timestamp series `imu_times` (the IMU value rows are
indexed in lockstep with it), and the row count of the external-state series
`iekf_states` read by `get_nav_state`. -/
structure Inputs where
  iekfTimes : List Int
  imuTimes : List Int
  numStates : Nat
  deriving DecidableEq

/-- Fuelled form of the inner IMU loop; `fuel` only bounds the recursion
depth (structural recursion, so that concrete runs reduce in the kernel) and
is chosen adequately in `align` below, where the loop itself is described. -/
def alignAux (t : Int) (l : List Int) : Nat → Nat → Option (List Event × Nat)
  | 0, _ => none
  | fuel + 1, k =>
    if h : k < l.length then
      if l.get ⟨k, h⟩ < t then
        match alignAux t l fuel (k + 1) with
        | some (evs, k2) => some (Event.consume k :: evs, k2)
        | none => none
      else
        some ([], k)
    else
      none

/-- The inner IMU loop of `iSAM` (the time-alignment step):

`while self.iekf_times[state_idx] > self.imu_times[imu_idx]: ... imu_idx += 1`

with `t` the current epoch boundary timestamp and `k` the cursor.  Each
executed body reads IMU row `k` (`consume k`) and advances the cursor.  The
source checks no bound on `imu_idx`: evaluating the loop condition with the
cursor at or past the end of the stream raises `IndexError`, modelled as
`none`.  The fuel `l.length + 1 - k` covers every reachable iteration: the
cursor can step from `k` at most to `l.length`, where the loop fails. -/
def align (t : Int) (imuTimes : List Int) (k : Nat) : Option (List Event × Nat) :=
  alignAux t imuTimes (imuTimes.length + 1 - k) k

/-- The events of the `state_idx = 0` branch of the loop body, in source
order: priors on pose and velocity are added to the graph, then initial
estimates for pose, velocity and the bias node are inserted, all values
taken from `get_nav_state(0)` or the fixed bias literal. -/
def epoch0Events : List Event :=
  [Event.visit 0,
   Event.addPriorPose 0 0 priorSigma,
   Event.addPriorVel 0 0 velSigma,
   Event.insertPose 0 0,
   Event.insertVel 0 0,
   Event.insertBias]

/-- One iteration of the `while state_idx < 100` loop body of `iSAM`, entered
with epoch index `i` and IMU cursor `k`; returns the events of the iteration
and the new cursor, or `none` when a sequence access is out of range.

Source order: `get_nav_state(state_idx)` first (requires `i < numStates`);
at `i = 0` the prior branch; otherwise `dt` is computed from
`iekf_times[i] - iekf_times[i-1]` (requires the accesses to succeed), the
iteration is cut short when `dt <= 0` (`state_idx += 1; continue`), and else
the previous-epoch estimates are inserted and the IMU loop runs. -/
def step (inp : Inputs) (i k : Nat) : Option (List Event × Nat) :=
  if i < inp.numStates then
    if i = 0 then
      some (epoch0Events, k)
    else
      match inp.iekfTimes.get? i, inp.iekfTimes.get? (i - 1) with
      | some ti, some tp =>
        if ti - tp ≤ 0 then
          some ([Event.visit i], k)
        else
          match align ti inp.imuTimes k with
          | some (evs, k2) =>
            some (Event.visit i :: Event.insertPose i (i - 1) ::
                  Event.insertVel i (i - 1) :: evs, k2)
          | none => none
      | _, _ => none
  else
    none

/-- The driver loop of `iSAM` from epoch index `i` with IMU cursor `k`:
while `i < 100`, run one iteration and continue at `i + 1` (the source
increments `state_idx` by exactly one on the skip path and on the processed
path alike) with the cursor the iteration left behind.  `fuel` only bounds
the structural recursion; since the index grows by exactly one per
iteration, the fuel `100 - i` supplied by `run` is exact, and the fuel-zero
case coincides with the loop exit `i >= 100`. -/
def runFrom (inp : Inputs) : Nat → Nat → Nat → Option (List Event)
  | 0, _, _ => some []
  | fuel + 1, i, k =>
    if i < 100 then
      match step inp i k with
      | some (evs, k2) =>
        match runFrom inp fuel (i + 1) k2 with
        | some rest => some (evs ++ rest)
        | none => none
      | none => none
    else
      some []

/-- The whole `iSAM` run: both counters start at zero and the loop bound is
the hardcoded `while state_idx < 100`. -/
def run (inp : Inputs) : Option (List Event) :=
  runFrom inp 100 0 0

/-- The IMU row indices consumed along a trace, in consumption order. -/
def consumedOf (tr : List Event) : List Nat :=
  tr.filterMap fun e =>
    match e with
    | Event.consume k => some k
    | _ => none

/-- The epoch indices whose loop iteration was entered, in order. -/
def visitsOf (tr : List Event) : List Nat :=
  tr.filterMap fun e =>
    match e with
    | Event.visit i => some i
    | _ => none

/-- Recognizes a pose prior factor event. -/
def isPriorPose : Event → Bool := fun e =>
  match e with
  | Event.addPriorPose _ _ _ => true
  | _ => false

/-- Recognizes a velocity prior factor event. -/
def isPriorVel : Event → Bool := fun e =>
  match e with
  | Event.addPriorVel _ _ _ => true
  | _ => false

/-- Recognizes the bias initial-estimate insertion event. -/
def isBiasInsert : Event → Bool := fun e =>
  match e with
  | Event.insertBias => true
  | _ => false

/-- Recognizes a preintegration factor event. -/
def isPreintFactor : Event → Bool := fun e =>
  match e with
  | Event.addPreintFactor _ _ => true
  | _ => false

/-- Recognizes an incremental solver update event. -/
def isSolverUpdate : Event → Bool := fun e =>
  match e with
  | Event.isamUpdate => true
  | _ => false

/-- The IMU timestamps of the consumed samples of a trace, in consumption
order (reading the timestamp series at each consumed row index). -/
def consumedTimesOf (inp : Inputs) (tr : List Event) : List Int :=
  (consumedOf tr).filterMap inp.imuTimes.get?

/-- Concrete input: 100 strictly increasing epoch timestamps, one IMU sample
far in the future (never consumed), 100 state rows; the run succeeds. -/
def inputA : Inputs := ⟨(List.range 100).map (fun n => (n : Int)), [1000], 100⟩

/-- Concrete input: 100 strictly increasing epoch timestamps, five early IMU
samples (all consumed during the first epochs) and one far in the future;
the run succeeds. -/
def inputB : Inputs := ⟨(List.range 100).map (fun n => (n : Int)), [0, 1, 2, 3, 4, 1000], 100⟩

/-- Concrete input: a single IMU sample with timestamp 5, while the epoch
timestamps reach far beyond it; the alignment of epoch index 6 exhausts the
IMU stream, so the run fails with an index error. -/
def inputC : Inputs := ⟨(List.range 100).map (fun n => (n : Int)), [5], 100⟩

/-- Concrete input with more epoch timestamps (105) and state rows (120)
than the loop bound: data remains when the loop stops at index 100. -/
def inputD : Inputs := ⟨(List.range 105).map (fun n => (n : Int)), [1000], 120⟩

/-- Concrete input whose epoch timestamps repeat at index 2 (0, 5, 5, 7,
then strictly increasing): index 2 is a skipped epoch. -/
def inputE : Inputs := ⟨[0, 5, 5, 7] ++ (List.range 96).map (fun n => (n + 10 : Int)), [1000], 100⟩

/-- Concrete input: 100 strictly increasing even epoch timestamps, one IMU
sample far in the future, 100 state rows; the run succeeds. -/
def inputF : Inputs := ⟨(List.range 100).map (fun n => (2 * n : Int)), [1000], 100⟩

/-! ### The orientation computation of `get_nav_state`

The source builds the rotation matrix of the navigation state as

  `r1 = R.from_rotvec([phi, 0, 0])`, `r2 = R.from_rotvec([0, theta, 0])`,
  `r3 = R.from_rotvec([0, 0, psi])`,
  `rot_mat = r1.as_matrix() @ r2.as_matrix() @ r3.as_matrix()`.

`scipy.spatial.transform.Rotation.from_rotvec` maps a rotation vector `v`
to the rotation by angle `theta = norm v` about the axis `v / norm v`; as a
matrix this is the Rodrigues formula
`I + (sin theta / theta) K + ((1 - cos theta) / theta ^ 2) K ^ 2` with `K`
the skew matrix of `v` (and the identity when `v = 0`).  We embed that
formula over the reals and compare the composite against the single-axis
rotation matrices `Rx`, `Ry`, `Rz` named by the specification. -/

noncomputable def Rx (a : ℝ) : Matrix (Fin 3) (Fin 3) ℝ :=
  !![1, 0, 0;
     0, Real.cos a, -Real.sin a;
     0, Real.sin a, Real.cos a]

noncomputable def Ry (a : ℝ) : Matrix (Fin 3) (Fin 3) ℝ :=
  !![Real.cos a, 0, Real.sin a;
     0, 1, 0;
     -Real.sin a, 0, Real.cos a]

noncomputable def Rz (a : ℝ) : Matrix (Fin 3) (Fin 3) ℝ :=
  !![Real.cos a, -Real.sin a, 0;
     Real.sin a, Real.cos a, 0;
     0, 0, 1]

noncomputable def skew3 (v : Fin 3 → ℝ) : Matrix (Fin 3) (Fin 3) ℝ :=
  !![0, -(v 2), v 1;
     v 2, 0, -(v 0);
     -(v 1), v 0, 0]

noncomputable def rotvecNorm (v : Fin 3 → ℝ) : ℝ :=
  Real.sqrt (v 0 ^ 2 + v 1 ^ 2 + v 2 ^ 2)

noncomputable def from_rotvec (v : Fin 3 → ℝ) : Matrix (Fin 3) (Fin 3) ℝ :=
  if rotvecNorm v = 0 then 1
  else
    1 + (Real.sin (rotvecNorm v) / rotvecNorm v) • skew3 v +
      ((1 - Real.cos (rotvecNorm v)) / rotvecNorm v ^ 2) • (skew3 v * skew3 v)

noncomputable def rot_mat (phi theta psi : ℝ) : Matrix (Fin 3) (Fin 3) ℝ :=
  from_rotvec ![phi, 0, 0] * from_rotvec ![0, theta, 0] * from_rotvec ![0, 0, psi]

/-! ### Helper lemmas -/

/-- The pose prior sigma is the rational value one tenth. -/
theorem priorSigma_eq : priorSigma = 1 / 10 := by
  rw [priorSigma, Rat.mk'_eq_divInt, Rat.divInt_eq_div]
  norm_num

/-- The velocity prior sigma is the rational value one tenth. -/
theorem velSigma_eq : velSigma = 1 / 10 := by
  rw [velSigma, Rat.mk'_eq_divInt, Rat.divInt_eq_div]
  norm_num


theorem alignAux_sound {t : Int} {l : List Int} :
    ∀ {fuel k evs k2}, alignAux t l fuel k = some (evs, k2) →
      k ≤ k2 ∧ evs = (List.range' k (k2 - k)).map Event.consume ∧
      (∃ hk : k2 < l.length, t ≤ l.get ⟨k2, hk⟩) ∧
      (∀ j (hj : j < l.length), k ≤ j → j < k2 → l.get ⟨j, hj⟩ < t) := by
  intro fuel
  induction fuel with
  | zero =>
    intro k evs k2 h
    simp [alignAux] at h
  | succ fuel ih =>
    intro k evs k2 h
    simp only [alignAux] at h
    split at h
    case isTrue hk =>
      split at h
      case isTrue hlt =>
        cases hrec : alignAux t l fuel (k + 1) with
        | none => rw [hrec] at h; exact absurd h (by simp)
        | some p =>
          obtain ⟨evs1, k1⟩ := p
          rw [hrec] at h
          simp only [Option.some.injEq, Prod.mk.injEq] at h
          obtain ⟨hevs, hk2⟩ := h
          subst hk2
          subst hevs
          obtain ⟨hle, hmap, hstop, hbelow⟩ := ih hrec
          refine ⟨by omega, ?_, hstop, ?_⟩
          · have hn : k1 - k = (k1 - (k + 1)) + 1 := by omega
            rw [hn, List.range'_succ, List.map_cons, ← hmap]
          · intro j hj hkj hjk2
            rcases Nat.eq_or_lt_of_le hkj with heq | hlt2
            · subst heq
              exact hlt
            · exact hbelow j hj hlt2 hjk2
      case isFalse hge =>
        simp only [Option.some.injEq, Prod.mk.injEq] at h
        obtain ⟨hevs, hk2⟩ := h
        subst hk2
        refine ⟨le_refl k, ?_, ⟨hk, by omega⟩, ?_⟩
        · subst hevs; simp
        · intro j hj hkj hjk; omega
    case isFalse hk =>
      exact absurd h (by simp)

theorem align_sound {t : Int} {l : List Int} {k k2 : Nat} {evs : List Event}
    (h : align t l k = some (evs, k2)) :
    k ≤ k2 ∧ evs = (List.range' k (k2 - k)).map Event.consume ∧
    (∃ hk : k2 < l.length, t ≤ l.get ⟨k2, hk⟩) ∧
    (∀ j (hj : j < l.length), k ≤ j → j < k2 → l.get ⟨j, hj⟩ < t) :=
  alignAux_sound h

theorem alignAux_exhausts {t : Int} {l : List Int} :
    ∀ (fuel k : Nat), (∀ j (hj : j < l.length), k ≤ j → l.get ⟨j, hj⟩ < t) →
      alignAux t l fuel k = none := by
  intro fuel
  induction fuel with
  | zero => intro k h; simp [alignAux]
  | succ fuel ih =>
    intro k h
    simp only [alignAux]
    split
    case isTrue hk =>
      rw [if_pos (h k hk (le_refl k))]
      rw [ih (k + 1) (fun j hj hkj => h j hj (by omega))]
    case isFalse hk => rfl

theorem align_exhausts {t : Int} {l : List Int} (k : Nat)
    (h : ∀ j (hj : j < l.length), k ≤ j → l.get ⟨j, hj⟩ < t) :
    align t l k = none :=
  alignAux_exhausts _ k h

theorem step_spec {inp : Inputs} {i k k2 : Nat} {evs : List Event}
    (h : step inp i k = some (evs, k2)) :
    i < inp.numStates ∧
    ((i = 0 ∧ evs = epoch0Events ∧ k2 = k) ∨
     (1 ≤ i ∧ ∃ ti tp, inp.iekfTimes.get? i = some ti ∧
        inp.iekfTimes.get? (i - 1) = some tp ∧
        ((ti - tp ≤ 0 ∧ evs = [Event.visit i] ∧ k2 = k) ∨
         (0 < ti - tp ∧ ∃ cevs, align ti inp.imuTimes k = some (cevs, k2) ∧
            evs = Event.visit i :: Event.insertPose i (i - 1) ::
                  Event.insertVel i (i - 1) :: cevs)))) := by
  unfold step at h
  split at h
  case isFalse => exact absurd h (by simp)
  case isTrue hns =>
    refine ⟨hns, ?_⟩
    split at h
    case isTrue h0 =>
      simp only [Option.some.injEq, Prod.mk.injEq] at h
      exact Or.inl ⟨h0, h.1.symm, h.2.symm⟩
    case isFalse h0 =>
      refine Or.inr ⟨Nat.one_le_iff_ne_zero.mpr h0, ?_⟩
      split at h
      case h_1 ti tp hti htp =>
        refine ⟨ti, tp, hti, htp, ?_⟩
        split at h
        case isTrue hdt =>
          simp only [Option.some.injEq, Prod.mk.injEq] at h
          exact Or.inl ⟨hdt, h.1.symm, h.2.symm⟩
        case isFalse hdt =>
          cases hrec : align ti inp.imuTimes k with
          | none => rw [hrec] at h; exact absurd h (by simp)
          | some p =>
            obtain ⟨cevs, kc⟩ := p
            rw [hrec] at h
            simp only [Option.some.injEq, Prod.mk.injEq] at h
            obtain ⟨hevs, hk2⟩ := h
            subst hk2
            exact Or.inr ⟨by omega, cevs, rfl, hevs.symm⟩
      case h_2 =>
        exact absurd h (by simp)

theorem step_zero {inp : Inputs} {k k2 : Nat} {evs : List Event}
    (h : step inp 0 k = some (evs, k2)) : evs = epoch0Events ∧ k2 = k := by
  rcases step_spec h with ⟨hns, h0 | ⟨h1, _⟩⟩
  · exact ⟨h0.2.1, h0.2.2⟩
  · omega

theorem consumedOf_append (a b : List Event) :
    consumedOf (a ++ b) = consumedOf a ++ consumedOf b := by
  simp [consumedOf]

theorem visitsOf_append (a b : List Event) :
    visitsOf (a ++ b) = visitsOf a ++ visitsOf b := by
  simp [visitsOf]

theorem consumedOf_map_consume (r : List Nat) :
    consumedOf (r.map Event.consume) = r := by
  induction r with
  | nil => rfl
  | cons a r ih => simpa [consumedOf] using ih

theorem visitsOf_map_consume (r : List Nat) :
    visitsOf (r.map Event.consume) = [] := by
  induction r with
  | nil => rfl
  | cons a r ih => simp [visitsOf]

theorem filter_map_consume (p : Event → Bool)
    (hp : ∀ j, p (Event.consume j) = false) (r : List Nat) :
    (r.map Event.consume).filter p = [] := by
  induction r with
  | nil => rfl
  | cons a r ih => simp [List.filter, hp a, ih]

theorem mem_map_consume {e : Event} {r : List Nat}
    (h : e ∈ r.map Event.consume) : ∃ j, e = Event.consume j := by
  obtain ⟨j, _, rfl⟩ := List.mem_map.mp h
  exact ⟨j, rfl⟩

theorem consumedOf_visit (i : Nat) (l : List Event) :
    consumedOf (Event.visit i :: l) = consumedOf l := rfl

theorem consumedOf_insertPose (a b : Nat) (l : List Event) :
    consumedOf (Event.insertPose a b :: l) = consumedOf l := rfl

theorem consumedOf_insertVel (a b : Nat) (l : List Event) :
    consumedOf (Event.insertVel a b :: l) = consumedOf l := rfl

theorem consumedOf_consume (j : Nat) (l : List Event) :
    consumedOf (Event.consume j :: l) = j :: consumedOf l := rfl

theorem visitsOf_visit (i : Nat) (l : List Event) :
    visitsOf (Event.visit i :: l) = i :: visitsOf l := rfl

theorem filter_append_ev (p : Event → Bool) (a b : List Event) :
    (a ++ b).filter p = a.filter p ++ b.filter p :=
  List.filter_append a b

theorem step_cursor (inp : Inputs) (i k k2 : Nat) (evs : List Event)
    (h : step inp i k = some (evs, k2)) :
    k ≤ k2 ∧ consumedOf evs = List.range' k (k2 - k) := by
  rcases step_spec h with ⟨hns, h0 | ⟨h1, ti, tp, hti, htp, hskip | hproc⟩⟩
  · obtain ⟨hi, hevs, hk⟩ := h0
    refine ⟨by omega, ?_⟩
    rw [hevs, hk, Nat.sub_self]
    rfl
  · obtain ⟨_, hevs, hk⟩ := hskip
    refine ⟨by omega, ?_⟩
    rw [hevs, hk, Nat.sub_self]
    rfl
  · obtain ⟨hdt, cevs, halign, hevs⟩ := hproc
    obtain ⟨hle, hmap, _, _⟩ := align_sound halign
    refine ⟨hle, ?_⟩
    rw [hevs, consumedOf_visit, consumedOf_insertPose, consumedOf_insertVel,
      hmap, consumedOf_map_consume]

theorem step_cursor_bound (inp : Inputs) (i k k2 : Nat) (evs : List Event)
    (h : step inp i k = some (evs, k2)) :
    k2 = k ∨ k2 < inp.imuTimes.length := by
  rcases step_spec h with ⟨hns, h0 | ⟨h1, ti, tp, hti, htp, hskip | hproc⟩⟩
  · exact Or.inl h0.2.2
  · exact Or.inl hskip.2.2
  · obtain ⟨hdt, cevs, halign, hevs⟩ := hproc
    obtain ⟨_, _, ⟨hk2, _⟩, _⟩ := align_sound halign
    exact Or.inr hk2

theorem step_visits (inp : Inputs) (i k k2 : Nat) (evs : List Event)
    (h : step inp i k = some (evs, k2)) :
    visitsOf evs = [i] := by
  rcases step_spec h with ⟨hns, h0 | ⟨h1, ti, tp, hti, htp, hskip | hproc⟩⟩
  · obtain ⟨hi, hevs, hk⟩ := h0
    rw [hevs, hi]
    rfl
  · obtain ⟨_, hevs, hk⟩ := hskip
    rw [hevs]
    rfl
  · obtain ⟨hdt, cevs, halign, hevs⟩ := hproc
    obtain ⟨_, hmap, _, _⟩ := align_sound halign
    rw [hevs, visitsOf_visit]
    rw [show visitsOf (Event.insertPose i (i-1) :: Event.insertVel i (i-1) :: cevs)
        = visitsOf cevs from rfl]
    rw [hmap, visitsOf_map_consume]

theorem step_no_solver (inp : Inputs) (i k k2 : Nat) (evs : List Event)
    (h : step inp i k = some (evs, k2)) :
    evs.filter isPreintFactor = [] ∧ evs.filter isSolverUpdate = [] := by
  rcases step_spec h with ⟨hns, h0 | ⟨h1, ti, tp, hti, htp, hskip | hproc⟩⟩
  · obtain ⟨hi, hevs, hk⟩ := h0
    rw [hevs]
    exact ⟨rfl, rfl⟩
  · obtain ⟨_, hevs, hk⟩ := hskip
    rw [hevs]
    exact ⟨rfl, rfl⟩
  · obtain ⟨hdt, cevs, halign, hevs⟩ := hproc
    obtain ⟨_, hmap, _, _⟩ := align_sound halign
    rw [hevs, hmap]
    constructor
    · rw [show (Event.visit i :: Event.insertPose i (i-1) :: Event.insertVel i (i-1) ::
          (List.range' k (k2 - k)).map Event.consume).filter isPreintFactor
          = ((List.range' k (k2 - k)).map Event.consume).filter isPreintFactor from rfl]
      exact filter_map_consume _ (fun j => rfl) _
    · rw [show (Event.visit i :: Event.insertPose i (i-1) :: Event.insertVel i (i-1) ::
          (List.range' k (k2 - k)).map Event.consume).filter isSolverUpdate
          = ((List.range' k (k2 - k)).map Event.consume).filter isSolverUpdate from rfl]
      exact filter_map_consume _ (fun j => rfl) _

theorem step_no_late_priors (inp : Inputs) (i k k2 : Nat) (evs : List Event)
    (h : step inp i k = some (evs, k2)) (h1 : 1 ≤ i) :
    evs.filter isPriorPose = [] ∧ evs.filter isPriorVel = [] ∧
    evs.filter isBiasInsert = [] := by
  rcases step_spec h with ⟨hns, h0 | ⟨_, ti, tp, hti, htp, hskip | hproc⟩⟩
  · omega
  · obtain ⟨_, hevs, hk⟩ := hskip
    rw [hevs]
    exact ⟨rfl, rfl, rfl⟩
  · obtain ⟨hdt, cevs, halign, hevs⟩ := hproc
    obtain ⟨_, hmap, _, _⟩ := align_sound halign
    rw [hevs, hmap]
    refine ⟨?_, ?_, ?_⟩
    · rw [show (Event.visit i :: Event.insertPose i (i-1) :: Event.insertVel i (i-1) ::
          (List.range' k (k2 - k)).map Event.consume).filter isPriorPose
          = ((List.range' k (k2 - k)).map Event.consume).filter isPriorPose from rfl]
      exact filter_map_consume _ (fun j => rfl) _
    · rw [show (Event.visit i :: Event.insertPose i (i-1) :: Event.insertVel i (i-1) ::
          (List.range' k (k2 - k)).map Event.consume).filter isPriorVel
          = ((List.range' k (k2 - k)).map Event.consume).filter isPriorVel from rfl]
      exact filter_map_consume _ (fun j => rfl) _
    · rw [show (Event.visit i :: Event.insertPose i (i-1) :: Event.insertVel i (i-1) ::
          (List.range' k (k2 - k)).map Event.consume).filter isBiasInsert
          = ((List.range' k (k2 - k)).map Event.consume).filter isBiasInsert from rfl]
      exact filter_map_consume _ (fun j => rfl) _

theorem step_insert_src (inp : Inputs) (i k k2 : Nat) (evs : List Event)
    (h : step inp i k = some (evs, k2)) :
    (∀ a b, Event.insertPose a b ∈ evs → a = i ∧ b = i - 1) ∧
    (∀ a b, Event.insertVel a b ∈ evs → a = i ∧ b = i - 1) := by
  rcases step_spec h with ⟨hns, h0 | ⟨h1, ti, tp, hti, htp, hskip | hproc⟩⟩
  · obtain ⟨hi, hevs, hk⟩ := h0
    subst hevs; subst hi
    constructor
    · intro a b hmem
      simp [epoch0Events] at hmem
      exact ⟨hmem.1, hmem.2⟩
    · intro a b hmem
      simp [epoch0Events] at hmem
      exact ⟨hmem.1, hmem.2⟩
  · obtain ⟨_, hevs, hk⟩ := hskip
    subst hevs
    constructor
    · intro a b hmem; simp at hmem
    · intro a b hmem; simp at hmem
  · obtain ⟨hdt, cevs, halign, hevs⟩ := hproc
    obtain ⟨_, hmap, _, _⟩ := align_sound halign
    subst hevs
    constructor
    · intro a b hmem
      simp at hmem
      rcases hmem with ⟨ha, hb⟩ | hmem
      · exact ⟨ha, hb⟩
      · rw [hmap] at hmem
        obtain ⟨j, hj⟩ := mem_map_consume hmem
        exact absurd hj (by simp)
    · intro a b hmem
      simp at hmem
      rcases hmem with ⟨ha, hb⟩ | hmem
      · exact ⟨ha, hb⟩
      · rw [hmap] at hmem
        obtain ⟨j, hj⟩ := mem_map_consume hmem
        exact absurd hj (by simp)

theorem runFrom_visits (inp : Inputs) :
    ∀ (fuel : Nat) (i k : Nat) (tr : List Event),
      runFrom inp fuel i k = some tr →
      visitsOf tr = List.range' i (min fuel (100 - i)) := by
  intro fuel
  induction fuel with
  | zero =>
    intro i k tr h
    simp only [runFrom, Option.some.injEq] at h
    subst h
    simp [visitsOf]
  | succ fuel ih =>
    intro i k tr h
    rw [runFrom] at h
    split at h
    case isTrue hlt =>
      cases hstep : step inp i k with
      | none => rw [hstep] at h; exact absurd h (by simp)
      | some p =>
        obtain ⟨evs, k1⟩ := p
        rw [hstep] at h
        dsimp only at h
        cases hrec : runFrom inp fuel (i + 1) k1 with
        | none => rw [hrec] at h; exact absurd h (by simp)
        | some rest =>
          rw [hrec] at h
          simp only [Option.some.injEq] at h
          subst h
          rw [visitsOf_append, step_visits inp i k k1 evs hstep, ih _ _ _ hrec]
          have hm : min (fuel + 1) (100 - i) = (min fuel (100 - (i + 1))) + 1 := by
            omega
          rw [hm, List.range'_succ]
          rfl
    case isFalse hge =>
      simp only [Option.some.injEq] at h
      subst h
      have hm : min (fuel + 1) (100 - i) = 0 := by omega
      rw [hm]
      simp [visitsOf]

theorem runFrom_cursor (inp : Inputs) :
    ∀ (fuel : Nat) (i k : Nat) (tr : List Event),
      runFrom inp fuel i k = some tr →
      ∃ k2, k ≤ k2 ∧ consumedOf tr = List.range' k (k2 - k) ∧
        (k ≤ inp.imuTimes.length → k2 ≤ inp.imuTimes.length) := by
  intro fuel
  induction fuel with
  | zero =>
    intro i k tr h
    simp only [runFrom, Option.some.injEq] at h
    subst h
    exact ⟨k, le_refl k, by simp [consumedOf], fun hk => hk⟩
  | succ fuel ih =>
    intro i k tr h
    rw [runFrom] at h
    split at h
    case isTrue hlt =>
      cases hstep : step inp i k with
      | none => rw [hstep] at h; exact absurd h (by simp)
      | some p =>
        obtain ⟨evs, k1⟩ := p
        rw [hstep] at h
        dsimp only at h
        cases hrec : runFrom inp fuel (i + 1) k1 with
        | none => rw [hrec] at h; exact absurd h (by simp)
        | some rest =>
          rw [hrec] at h
          simp only [Option.some.injEq] at h
          subst h
          obtain ⟨hk1, hcons1⟩ := step_cursor inp i k k1 evs hstep
          have hbd1 := step_cursor_bound inp i k k1 evs hstep
          obtain ⟨k2, hk2, hcons2, hbd2⟩ := ih _ _ _ hrec
          refine ⟨k2, by omega, ?_, ?_⟩
          · rw [consumedOf_append, hcons1, hcons2]
            have happ := List.range'_append k (k1 - k) (k2 - k1) 1
            rw [one_mul] at happ
            have h1 : k + (k1 - k) = k1 := by omega
            have h2 : (k2 - k1) + (k1 - k) = k2 - k := by omega
            rw [h1, h2] at happ
            exact happ
          · intro hk
            apply hbd2
            rcases hbd1 with heq | hlt2
            · omega
            · omega
    case isFalse hge =>
      simp only [Option.some.injEq] at h
      subst h
      exact ⟨k, le_refl k, by simp [consumedOf], fun hk => hk⟩

theorem runFrom_no_solver (inp : Inputs) :
    ∀ (fuel : Nat) (i k : Nat) (tr : List Event),
      runFrom inp fuel i k = some tr →
      tr.filter isPreintFactor = [] ∧ tr.filter isSolverUpdate = [] := by
  intro fuel
  induction fuel with
  | zero =>
    intro i k tr h
    simp only [runFrom, Option.some.injEq] at h
    subst h
    exact ⟨rfl, rfl⟩
  | succ fuel ih =>
    intro i k tr h
    rw [runFrom] at h
    split at h
    case isTrue hlt =>
      cases hstep : step inp i k with
      | none => rw [hstep] at h; exact absurd h (by simp)
      | some p =>
        obtain ⟨evs, k1⟩ := p
        rw [hstep] at h
        dsimp only at h
        cases hrec : runFrom inp fuel (i + 1) k1 with
        | none => rw [hrec] at h; exact absurd h (by simp)
        | some rest =>
          rw [hrec] at h
          simp only [Option.some.injEq] at h
          subst h
          obtain ⟨hs1, hs2⟩ := step_no_solver inp i k k1 evs hstep
          obtain ⟨hr1, hr2⟩ := ih _ _ _ hrec
          rw [filter_append_ev, filter_append_ev, hs1, hs2, hr1, hr2]
          exact ⟨rfl, rfl⟩
    case isFalse hge =>
      simp only [Option.some.injEq] at h
      subst h
      exact ⟨rfl, rfl⟩

theorem runFrom_no_late_priors (inp : Inputs) :
    ∀ (fuel : Nat) (i k : Nat) (tr : List Event), 1 ≤ i →
      runFrom inp fuel i k = some tr →
      tr.filter isPriorPose = [] ∧ tr.filter isPriorVel = [] ∧
      tr.filter isBiasInsert = [] := by
  intro fuel
  induction fuel with
  | zero =>
    intro i k tr h1 h
    simp only [runFrom, Option.some.injEq] at h
    subst h
    exact ⟨rfl, rfl, rfl⟩
  | succ fuel ih =>
    intro i k tr h1 h
    rw [runFrom] at h
    split at h
    case isTrue hlt =>
      cases hstep : step inp i k with
      | none => rw [hstep] at h; exact absurd h (by simp)
      | some p =>
        obtain ⟨evs, k1⟩ := p
        rw [hstep] at h
        dsimp only at h
        cases hrec : runFrom inp fuel (i + 1) k1 with
        | none => rw [hrec] at h; exact absurd h (by simp)
        | some rest =>
          rw [hrec] at h
          simp only [Option.some.injEq] at h
          subst h
          obtain ⟨hs1, hs2, hs3⟩ := step_no_late_priors inp i k k1 evs hstep h1
          obtain ⟨hr1, hr2, hr3⟩ := ih _ _ _ (by omega) hrec
          rw [filter_append_ev, filter_append_ev, filter_append_ev,
            hs1, hs2, hs3, hr1, hr2, hr3]
          exact ⟨rfl, rfl, rfl⟩
    case isFalse hge =>
      simp only [Option.some.injEq] at h
      subst h
      exact ⟨rfl, rfl, rfl⟩

theorem runFrom_insert_src (inp : Inputs) :
    ∀ (fuel : Nat) (i k : Nat) (tr : List Event),
      runFrom inp fuel i k = some tr →
      ∀ a b, (Event.insertPose a b ∈ tr → b = a - 1) ∧
             (Event.insertVel a b ∈ tr → b = a - 1) := by
  intro fuel
  induction fuel with
  | zero =>
    intro i k tr h
    simp only [runFrom, Option.some.injEq] at h
    subst h
    intro a b
    constructor <;> intro hmem <;> simp at hmem
  | succ fuel ih =>
    intro i k tr h
    rw [runFrom] at h
    split at h
    case isTrue hlt =>
      cases hstep : step inp i k with
      | none => rw [hstep] at h; exact absurd h (by simp)
      | some p =>
        obtain ⟨evs, k1⟩ := p
        rw [hstep] at h
        dsimp only at h
        cases hrec : runFrom inp fuel (i + 1) k1 with
        | none => rw [hrec] at h; exact absurd h (by simp)
        | some rest =>
          rw [hrec] at h
          simp only [Option.some.injEq] at h
          subst h
          intro a b
          obtain ⟨hp, hv⟩ := step_insert_src inp i k k1 evs hstep
          constructor
          · intro hmem
            rcases List.mem_append.mp hmem with hm | hm
            · obtain ⟨ha, hb⟩ := hp a b hm
              omega
            · exact ((ih _ _ _ hrec) a b).1 hm
          · intro hmem
            rcases List.mem_append.mp hmem with hm | hm
            · obtain ⟨ha, hb⟩ := hv a b hm
              omega
            · exact ((ih _ _ _ hrec) a b).2 hm
    case isFalse hge =>
      simp only [Option.some.injEq] at h
      subst h
      intro a b
      constructor <;> intro hmem <;> simp at hmem

theorem filterMap_get?_range' (l : List Int) :
    ∀ (n s : Nat), s + n ≤ l.length →
      (List.range' s n).filterMap l.get? = (l.drop s).take n := by
  intro n
  induction n with
  | zero => intro s h; simp
  | succ n ih =>
    intro s h
    have hs : s < l.length := by omega
    rw [List.range'_succ, List.filterMap_cons, List.get?_eq_get hs]
    dsimp only
    rw [ih (s + 1) (by omega), List.drop_eq_getElem_cons hs]
    rfl

theorem rotvecNorm_x (a : ℝ) : rotvecNorm ![a, 0, 0] = |a| := by
  simp [rotvecNorm, Real.sqrt_sq_eq_abs]

theorem rotvecNorm_y (a : ℝ) : rotvecNorm ![0, a, 0] = |a| := by
  simp [rotvecNorm, Real.sqrt_sq_eq_abs]

theorem rotvecNorm_z (a : ℝ) : rotvecNorm ![0, 0, a] = |a| := by
  simp [rotvecNorm, Real.sqrt_sq_eq_abs]

theorem sin_abs_div_mul (a : ℝ) (ha : a ≠ 0) :
    Real.sin |a| / |a| * a = Real.sin a := by
  rcases lt_or_gt_of_ne ha with h | h
  · rw [abs_of_neg h, Real.sin_neg]
    field_simp
  · rw [abs_of_pos h]
    field_simp

theorem one_sub_cos_abs_div (a : ℝ) (ha : a ≠ 0) :
    (1 - Real.cos |a|) / |a| ^ 2 * a ^ 2 = 1 - Real.cos a := by
  rw [Real.cos_abs, sq_abs]
  field_simp

theorem from_rotvec_x (a : ℝ) : from_rotvec ![a, 0, 0] = Rx a := by
  by_cases ha : a = 0
  · subst ha
    rw [from_rotvec, if_pos (by rw [rotvecNorm_x]; simp)]
    ext i j
    fin_cases i <;> fin_cases j <;>
      simp [Rx, Matrix.one_apply, Matrix.vecHead, Matrix.vecTail]
  · have hax : skew3 ![a, 0, 0] = a • skew3 ![1, 0, 0] := by
      ext i j
      fin_cases i <;> fin_cases j <;>
        simp [skew3, Matrix.vecHead, Matrix.vecTail]
    have heq1 : (Real.sin |a| / |a|) • skew3 ![a, 0, 0]
        = Real.sin a • skew3 ![1, 0, 0] := by
      rw [hax, smul_smul, sin_abs_div_mul a ha]
    have heq2 : ((1 - Real.cos |a|) / |a| ^ 2) • (skew3 ![a, 0, 0] * skew3 ![a, 0, 0])
        = (1 - Real.cos a) • (skew3 ![1, 0, 0] * skew3 ![1, 0, 0]) := by
      rw [hax, smul_mul_assoc, Matrix.mul_smul, smul_smul, smul_smul]
      congr 1
      rw [mul_assoc, ← sq]
      exact one_sub_cos_abs_div a ha
    rw [from_rotvec, if_neg (by rw [rotvecNorm_x]; simpa using ha), rotvecNorm_x,
      heq1, heq2]
    ext i j
    fin_cases i <;> fin_cases j <;>
      simp [Rx, skew3, Matrix.one_apply, Matrix.mul_apply, Fin.sum_univ_three,
        Matrix.vecHead, Matrix.vecTail]

theorem from_rotvec_y (a : ℝ) : from_rotvec ![0, a, 0] = Ry a := by
  by_cases ha : a = 0
  · subst ha
    rw [from_rotvec, if_pos (by rw [rotvecNorm_y]; simp)]
    ext i j
    fin_cases i <;> fin_cases j <;>
      simp [Ry, Matrix.one_apply, Matrix.vecHead, Matrix.vecTail]
  · have hax : skew3 ![0, a, 0] = a • skew3 ![0, 1, 0] := by
      ext i j
      fin_cases i <;> fin_cases j <;>
        simp [skew3, Matrix.vecHead, Matrix.vecTail]
    have heq1 : (Real.sin |a| / |a|) • skew3 ![0, a, 0]
        = Real.sin a • skew3 ![0, 1, 0] := by
      rw [hax, smul_smul, sin_abs_div_mul a ha]
    have heq2 : ((1 - Real.cos |a|) / |a| ^ 2) • (skew3 ![0, a, 0] * skew3 ![0, a, 0])
        = (1 - Real.cos a) • (skew3 ![0, 1, 0] * skew3 ![0, 1, 0]) := by
      rw [hax, smul_mul_assoc, Matrix.mul_smul, smul_smul, smul_smul]
      congr 1
      rw [mul_assoc, ← sq]
      exact one_sub_cos_abs_div a ha
    rw [from_rotvec, if_neg (by rw [rotvecNorm_y]; simpa using ha), rotvecNorm_y,
      heq1, heq2]
    ext i j
    fin_cases i <;> fin_cases j <;>
      simp [Ry, skew3, Matrix.one_apply, Matrix.mul_apply, Fin.sum_univ_three,
        Matrix.vecHead, Matrix.vecTail]

theorem from_rotvec_z (a : ℝ) : from_rotvec ![0, 0, a] = Rz a := by
  by_cases ha : a = 0
  · subst ha
    rw [from_rotvec, if_pos (by rw [rotvecNorm_z]; simp)]
    ext i j
    fin_cases i <;> fin_cases j <;>
      simp [Rz, Matrix.one_apply, Matrix.vecHead, Matrix.vecTail]
  · have hax : skew3 ![0, 0, a] = a • skew3 ![0, 0, 1] := by
      ext i j
      fin_cases i <;> fin_cases j <;>
        simp [skew3, Matrix.vecHead, Matrix.vecTail]
    have heq1 : (Real.sin |a| / |a|) • skew3 ![0, 0, a]
        = Real.sin a • skew3 ![0, 0, 1] := by
      rw [hax, smul_smul, sin_abs_div_mul a ha]
    have heq2 : ((1 - Real.cos |a|) / |a| ^ 2) • (skew3 ![0, 0, a] * skew3 ![0, 0, a])
        = (1 - Real.cos a) • (skew3 ![0, 0, 1] * skew3 ![0, 0, 1]) := by
      rw [hax, smul_mul_assoc, Matrix.mul_smul, smul_smul, smul_smul]
      congr 1
      rw [mul_assoc, ← sq]
      exact one_sub_cos_abs_div a ha
    rw [from_rotvec, if_neg (by rw [rotvecNorm_z]; simpa using ha), rotvecNorm_z,
      heq1, heq2]
    ext i j
    fin_cases i <;> fin_cases j <;>
      simp [Rz, skew3, Matrix.one_apply, Matrix.mul_apply, Fin.sum_univ_three,
        Matrix.vecHead, Matrix.vecTail]

theorem Rx_zero : Rx 0 = 1 := by
  ext i j
  fin_cases i <;> fin_cases j <;> simp [Rx, Matrix.one_apply, Matrix.vecHead, Matrix.vecTail]

theorem Ry_zero : Ry 0 = 1 := by
  ext i j
  fin_cases i <;> fin_cases j <;> simp [Ry, Matrix.one_apply, Matrix.vecHead, Matrix.vecTail]

theorem Rz_zero : Rz 0 = 1 := by
  ext i j
  fin_cases i <;> fin_cases j <;> simp [Rz, Matrix.one_apply, Matrix.vecHead, Matrix.vecTail]

/-! ### Claim theorems -/

/-- C1: the claim states that every processed epoch transition adds exactly
one preintegration constraint linking the two epochs and the bias and
performs exactly one incremental solver update.  Evaluating the embedded
driver on a concrete run that does process epoch transitions (the initial
estimate for epoch 1 is inserted, so the transition 0 to 1 is processed)
shows the trace contains no preintegration-factor event and no solver
update event at all: the body of `iSAM` never constructs an IMU factor and
never calls `isam.update`, although its docstring promises to optimize over
the graph after each new observation. -/
theorem C1_thm :
    (run inputB).isSome = true ∧
    Event.insertPose 1 0 ∈ (run inputB).getD [] ∧
    ((run inputB).getD []).filter isPreintFactor = [] ∧
    ((run inputB).getD []).filter isSolverUpdate = [] := by decide

/-- C2 (counterexample): the claim states that when an epoch boundary lies
beyond the last IMU sample the alignment stops consuming and no error is
raised.  In the source the inner loop condition reads
`self.imu_times[imu_idx]` without any bound check, so once the cursor has
passed the last sample the access raises `IndexError` (modelled as `none`):
the alignment fails rather than stopping, and the whole run aborts. -/
theorem C2_counterexample :
    align 6 [5] 0 = none ∧ run inputC = none := by decide

/-- C2 (amended): if every IMU sample at or after the cursor has a
timestamp strictly below the epoch boundary `t` (in particular when the
boundary lies beyond the last sample), the alignment loop runs off the end
of the stream and fails with an index error (`none`); the run does not
continue. -/
theorem C2_amended_thm (t : Int) (l : List Int) (k : Nat)
    (h : ∀ j (hj : j < l.length), k ≤ j → l.get ⟨j, hj⟩ < t) :
    align t l k = none :=
  align_exhausts k h

theorem C2_amended_witness :
    (∀ j (hj : j < List.length [(5 : Int)]), 0 ≤ j → List.get [(5 : Int)] ⟨j, hj⟩ < 10) ∧
    align 10 [5] 0 = none :=
  ⟨by decide, C2_amended_thm 10 [5] 0 (by decide)⟩

/-- C3 (counterexample): the claim states that at epochs `i >= 1` the
initial estimates inserted for the new pose and velocity variables are the
previous solved values, the current best estimate of the incremental
solver.  On a concrete successful run the trace inserts initial estimates
for epoch 1 whose values are read from the external estimator series at
index 0 (`get_nav_state(0)`), while the trace contains no solver update
event whatsoever — the solver holds no estimate of any epoch, so the
inserted values cannot be solver output. -/
theorem C3_counterexample :
    (run inputF).isSome = true ∧
    Event.insertPose 1 0 ∈ (run inputF).getD [] ∧
    Event.insertVel 1 0 ∈ (run inputF).getD [] ∧
    ((run inputF).getD []).filter isSolverUpdate = [] := by decide

/-- C3 (amended): at every epoch `i >= 1` the initial estimates inserted
for the new pose and velocity variables are the external estimator values
recorded for epoch `i - 1`, read through the Epoch State Adapter
(`get_nav_state(i - 1)`), not solver output and not a forecast for epoch
`i`; at epoch 0 the values of index 0 itself are used. -/
theorem C3_amended_thm (inp : Inputs) (tr : List Event) (a b : Nat)
    (h : run inp = some tr) :
    (Event.insertPose a b ∈ tr → (a = 0 ∧ b = 0) ∨ (1 ≤ a ∧ b = a - 1)) ∧
    (Event.insertVel a b ∈ tr → (a = 0 ∧ b = 0) ∨ (1 ≤ a ∧ b = a - 1)) := by
  obtain ⟨hp, hv⟩ := runFrom_insert_src inp 100 0 0 tr h a b
  constructor
  · intro hm
    rcases Nat.eq_zero_or_pos a with rfl | ha
    · exact Or.inl ⟨rfl, hp hm⟩
    · exact Or.inr ⟨ha, hp hm⟩
  · intro hm
    rcases Nat.eq_zero_or_pos a with rfl | ha
    · exact Or.inl ⟨rfl, hv hm⟩
    · exact Or.inr ⟨ha, hv hm⟩

theorem C3_amended_witness :
    (Event.insertPose 1 0 ∈ (run inputF).getD [] →
      (1 = 0 ∧ 0 = 0) ∨ (1 ≤ 1 ∧ 0 = 1 - 1)) ∧
    (Event.insertVel 1 0 ∈ (run inputF).getD [] →
      (1 = 0 ∧ 0 = 0) ∨ (1 ≤ 1 ∧ 0 = 1 - 1)) :=
  C3_amended_thm inputF ((run inputF).getD []) 1 0 (by decide)

/-- C4: an epoch index `i >= 1` whose computed `dt = t_i - t_{i-1}` is
non-positive is skipped: the iteration emits only the `visit i` event — no
pose or velocity variable is created for index `i`, no initial estimate is
inserted, no IMU sample is consumed and no solver call happens — the IMU
cursor is returned unchanged, and the loop continues at index `i + 1`. -/
theorem C4_thm (inp : Inputs) (i k fuel : Nat) (ti tp : Int)
    (hns : i < inp.numStates) (h1 : 1 ≤ i)
    (hti : inp.iekfTimes.get? i = some ti)
    (htp : inp.iekfTimes.get? (i - 1) = some tp)
    (hdt : ti - tp ≤ 0) (hlt : i < 100) :
    step inp i k = some ([Event.visit i], k) ∧
    runFrom inp (fuel + 1) i k =
      (runFrom inp fuel (i + 1) k).map (fun tr => Event.visit i :: tr) := by
  have hstep : step inp i k = some ([Event.visit i], k) := by
    unfold step
    rw [if_pos hns, if_neg (by omega), hti, htp]
    dsimp only
    rw [if_pos hdt]
  refine ⟨hstep, ?_⟩
  rw [runFrom, if_pos hlt, hstep]
  dsimp only
  cases runFrom inp fuel (i + 1) k with
  | none => rfl
  | some rest => rfl

theorem C4_witness :
    step inputE 2 0 = some ([Event.visit 2], 0) ∧
    runFrom inputE (97 + 1) 2 0 =
      (runFrom inputE 97 3 0).map (fun tr => Event.visit 2 :: tr) :=
  C4_thm inputE 2 0 97 5 5 (by decide) (by decide) (by decide) (by decide)
    (by decide) (by decide)

/-- C5: the orientation returned by `get_nav_state` equals the left
multiplied product `Rx(phi) * Ry(theta) * Rz(psi)` of the three single-axis
rotations built from the roll, pitch and yaw angles, for all angles; in
particular the zero triple yields the identity rotation. -/
theorem C5_thm :
    (∀ phi theta psi : ℝ, rot_mat phi theta psi = Rx phi * Ry theta * Rz psi) ∧
    rot_mat 0 0 0 = 1 := by
  have hmain : ∀ phi theta psi : ℝ,
      rot_mat phi theta psi = Rx phi * Ry theta * Rz psi := by
    intro phi theta psi
    rw [rot_mat, from_rotvec_x, from_rotvec_y, from_rotvec_z]
  refine ⟨hmain, ?_⟩
  rw [hmain 0 0 0, Rx_zero, Ry_zero, Rz_zero, one_mul, one_mul]

/-- C6: across a whole successful run the IMU read-cursor is monotonically
non-decreasing.  The row indices consumed along the trace are
non-decreasing in consumption order (so every sample consumed for a later
epoch has an index at least that of every sample consumed for an earlier
epoch); under a monotone IMU timestamp series the consumed timestamps are
likewise non-decreasing along the trace; and no single iteration ever
rewinds the cursor. -/
theorem C6_thm (inp : Inputs) (tr : List Event) (h : run inp = some tr) :
    List.Pairwise (· ≤ ·) (consumedOf tr) ∧
    (List.Pairwise (· ≤ ·) inp.imuTimes →
      List.Pairwise (· ≤ ·) (consumedTimesOf inp tr)) ∧
    (∀ i k k2 evs, step inp i k = some (evs, k2) → k ≤ k2) := by
  obtain ⟨k2, hk2, hcons, hbd⟩ := runFrom_cursor inp 100 0 0 tr h
  have hk2len : k2 ≤ inp.imuTimes.length := hbd (Nat.zero_le _)
  refine ⟨?_, ?_, ?_⟩
  · rw [hcons]
    exact (List.pairwise_lt_range' 0 (k2 - 0)).imp (fun hab => le_of_lt hab)
  · intro hmono
    rw [consumedTimesOf, hcons, Nat.sub_zero,
      filterMap_get?_range' inp.imuTimes k2 0 (by omega), List.drop_zero]
    exact (hmono.sublist (List.take_sublist k2 inp.imuTimes))
  · intro i k ka evs hstep
    exact (step_cursor inp i k ka evs hstep).1

theorem C6_witness :
    List.Pairwise (· ≤ ·) (consumedOf ((run inputB).getD [])) ∧
    (List.Pairwise (· ≤ ·) inputB.imuTimes →
      List.Pairwise (· ≤ ·) (consumedTimesOf inputB ((run inputB).getD []))) ∧
    (∀ i k k2 evs, step inputB i k = some (evs, k2) → k ≤ k2) :=
  C6_thm inputB ((run inputB).getD []) (by decide)

/-- C7: a successful alignment starting at cursor `k` with epoch boundary
`t` consumes exactly the contiguous IMU rows `k, k+1, ...` whose timestamps
are strictly below `t`, and leaves the cursor at the first row at or after
`k` whose timestamp is at least `t`. -/
theorem C7_thm (t : Int) (l : List Int) (k k2 : Nat) (evs : List Event)
    (h : align t l k = some (evs, k2)) :
    k ≤ k2 ∧ consumedOf evs = List.range' k (k2 - k) ∧
    (∀ j (hj : j < l.length), k ≤ j → j < k2 → l.get ⟨j, hj⟩ < t) ∧
    ∃ hk : k2 < l.length, t ≤ l.get ⟨k2, hk⟩ := by
  obtain ⟨hle, hmap, hstop, hbelow⟩ := align_sound h
  refine ⟨hle, ?_, hbelow, hstop⟩
  rw [hmap, consumedOf_map_consume]

theorem C7_witness :
    align 3 [0, 1, 2, 3, 4] 0 =
      some ([Event.consume 0, Event.consume 1, Event.consume 2], 3) ∧
    ((0 : Nat) ≤ 3 ∧
      consumedOf [Event.consume 0, Event.consume 1, Event.consume 2] =
        List.range' 0 (3 - 0) ∧
      (∀ j (hj : j < List.length [(0 : Int), 1, 2, 3, 4]), 0 ≤ j → j < 3 →
        List.get [(0 : Int), 1, 2, 3, 4] ⟨j, hj⟩ < 3) ∧
      ∃ hk : 3 < List.length [(0 : Int), 1, 2, 3, 4],
        (3 : Int) ≤ List.get [(0 : Int), 1, 2, 3, 4] ⟨3, hk⟩) :=
  ⟨by decide,
   C7_thm 3 [0, 1, 2, 3, 4] 0 3 [Event.consume 0, Event.consume 1, Event.consume 2]
     (by decide)⟩

/-- C8: on every successful run the trace starts with the epoch-0 block,
and over the whole run exactly one pose prior and one velocity prior are
added — both at epoch 0, anchored to the external estimator values of
index 0, with the fixed noise sigmas — and the bias node initial estimate
is inserted exactly once, in that same epoch-0 step. -/
theorem C8_thm (inp : Inputs) (tr : List Event) (h : run inp = some tr) :
    (∃ rest, tr = epoch0Events ++ rest) ∧
    tr.filter isPriorPose = [Event.addPriorPose 0 0 priorSigma] ∧
    tr.filter isPriorVel = [Event.addPriorVel 0 0 velSigma] ∧
    tr.filter isBiasInsert = [Event.insertBias] := by
  have h' : runFrom inp (99 + 1) 0 0 = some tr := h
  rw [runFrom, if_pos (by omega)] at h'
  cases hstep : step inp 0 0 with
  | none => rw [hstep] at h'; exact absurd h' (by simp)
  | some p =>
    obtain ⟨evs, k1⟩ := p
    rw [hstep] at h'
    dsimp only at h'
    cases hrec : runFrom inp 99 1 k1 with
    | none => rw [hrec] at h'; exact absurd h' (by simp)
    | some rest =>
      rw [hrec] at h'
      simp only [Option.some.injEq] at h'
      obtain ⟨hevs, _⟩ := step_zero hstep
      subst hevs
      obtain ⟨hr1, hr2, hr3⟩ := runFrom_no_late_priors inp 99 1 k1 rest (le_refl 1) hrec
      subst h'
      rw [filter_append_ev, filter_append_ev, filter_append_ev, hr1, hr2, hr3]
      exact ⟨⟨rest, rfl⟩, rfl, rfl, rfl⟩

theorem C8_witness :
    (∃ rest, (run inputA).getD [] = epoch0Events ++ rest) ∧
    ((run inputA).getD []).filter isPriorPose = [Event.addPriorPose 0 0 priorSigma] ∧
    ((run inputA).getD []).filter isPriorVel = [Event.addPriorVel 0 0 velSigma] ∧
    ((run inputA).getD []).filter isBiasInsert = [Event.insertBias] :=
  C8_thm inputA ((run inputA).getD []) (by decide)

/-- C9: the driver loop terminates and the epoch index advances by exactly
one per iteration: every successful run visits exactly the epoch indices 0
through 99, in order, and stops at the hard bound 100 regardless of how
much input data remains. -/
theorem C9_thm (inp : Inputs) (tr : List Event) (h : run inp = some tr) :
    visitsOf tr = List.range 100 := by
  have hv := runFrom_visits inp 100 0 0 tr h
  rw [Nat.sub_zero, min_self] at hv
  rw [hv, List.range_eq_range']

theorem C9_witness :
    visitsOf ((run inputD).getD []) = List.range 100 :=
  C9_thm inputD ((run inputD).getD []) (by decide)

/-- C10: an iteration that skips epoch `i` because `dt <= 0` leaves the IMU
read-cursor exactly where it was and consumes no IMU sample, so the samples
of the degenerate interval remain for the preintegration window of the next
processed epoch instead of being dropped. -/
theorem C10_thm (inp : Inputs) (i k k2 : Nat) (ti tp : Int) (evs : List Event)
    (_hns : i < inp.numStates) (h1 : 1 ≤ i)
    (hti : inp.iekfTimes.get? i = some ti)
    (htp : inp.iekfTimes.get? (i - 1) = some tp)
    (hdt : ti - tp ≤ 0)
    (h : step inp i k = some (evs, k2)) :
    k2 = k ∧ consumedOf evs = [] := by
  rcases step_spec h with ⟨_, h0 | ⟨_, ti2, tp2, hti2, htp2, hskip | hproc⟩⟩
  · omega
  · obtain ⟨_, hevs, hk⟩ := hskip
    rw [hevs]
    exact ⟨hk, rfl⟩
  · rw [hti] at hti2
    rw [htp] at htp2
    obtain ⟨hdt2, _⟩ := hproc
    simp only [Option.some.injEq] at hti2 htp2
    omega

theorem C10_witness :
    (0 : Nat) = 0 ∧ consumedOf [Event.visit 2] = [] :=
  C10_thm inputE 2 0 0 5 5 [Event.visit 2] (by decide) (by decide) (by decide)
    (by decide) (by decide) (by decide)

end UWSLAM
